import Mathlib

/-!
Verification of `src/harness.js` (jakewins/transactional-promises), a
verification engine for asynchronous call-ordering contracts.

The development is a shallow embedding of the harness:

* The pure algorithms (`all_permutations`, `is_valid_sequence`,
  `sequence_fits_pattern`, `action_fits_pattern`, `describe_permutation`)
  are translated directly into Lean functions.
* The stateful, promise-driven part (`test_correctness`, `wait_for`, the
  tracked callables) is embedded as a deterministic abstract machine with
  an explicit microtask queue, mirroring the semantics of the Promises/A+
  `promise` npm library the source imports: promise cells are
  pending/fulfilled/rejected, `then` reactions run as FIFO microtasks,
  non-function arguments to `then` are ignored (pass-through), and
  handler results resolve the derived promise (adopting promise values).
* JavaScript object identity of outcome-generator functions is modelled
  by a numeric identity `pid` carried by every `Producer`: distinct
  function objects are given distinct pids, and the `===` comparison in
  `action_fits_pattern` becomes pid equality.
* The pattern under test is a deep embedding (`Prog`) of the operations
  such a callable can perform against the harness: invoke a tracked
  callable, create a resolved promise, attach a `then` continuation,
  return a value or throw synchronously.
-/

/-- Runtime values of the embedded JavaScript fragment.  `vUnit` plays the
role of both `undefined` and `null`; `vProm i` is a reference to the
promise cell with index `i`; `vRes p d` is the result record
`{passed: p}` / `{passed: p, description: d}` built by the harness. -/
inductive Val where
  | vUnit
  | vNat (n : Nat)
  | vStr (s : String)
  | vProm (id : Nat)
  | vRes (passed : Bool) (description : Option String)
deriving DecidableEq, Repr

/-- Initial state of a promise allocated by an outcome producer: the
producer may hand back an already-fulfilled, already-rejected, or a
forever-pending deferred value. -/
inductive PInit where
  | pFul (v : Val)
  | pRej (v : Val)
  | pPend
deriving Repr

/-- What one outcome-generator (a zero-argument JS function) does when
called: return a plain value, throw, or return a fresh deferred. -/
inductive PBehavior where
  | bRet (v : Val)
  | bThrow (v : Val)
  | bDefer (init : PInit)
deriving Repr

/-- An outcome-generator function object.  `pname` is its JS `name`
attribute (used only in diagnostic text), `pid` its object identity
(used for the `===` comparison in `action_fits_pattern`). -/
structure Producer where
  pname : String
  pid : Nat
  behavior : PBehavior
deriving Repr

/-- An Action Descriptor, as built by `action(name, ...outcomes)`
(harness.js line 3): a name plus the ordered list of outcome
generators. -/
structure ActionD where
  name : String
  outcomes : List Producer
deriving Repr

/-- Embedding of `action(name, ...outcomes)` from harness.js lines 3-8.  The returned
object exposes the name and (via its `forEach`) the `{name, outcome}`
pairs; the record type above carries the same data. -/
def action (name : String) (outcomes : List Producer) : ActionD :=
  ⟨name, outcomes⟩

/-- One `{name, outcome}` pair as produced by the `forEach` of an action
(harness.js line 6).  These pairs are both the elements of permutations
and the `CallRecord`s pushed into the per-scenario sequence. -/
structure Entry where
  name : String
  outcome : Producer
deriving Repr

/-- The list of `{name, outcome}` pairs the action's `forEach` visits, in
declaration order (harness.js line 6). -/
def entries (a : ActionD) : List Entry :=
  a.outcomes.map (fun o => ⟨a.name, o⟩)

/-- Embedding of `all_permutations(args, callback)` from harness.js lines 77-89,
reified as the list of argument lists passed to `callback`, in call
order: for zero actions the single empty permutation; otherwise, for
each outcome entry of the first action (outer loop), every permutation
of the remaining actions (inner recursion) prefixed with that entry. -/
def all_permutations : List ActionD → List (List Entry)
  | [] => [[]]
  | a :: rest => (entries a).flatMap (fun e => (all_permutations rest).map (fun p => e :: p))

/-- One entry of a valid-sequence template: the JS array
`[action, outcome_1, ..., outcome_k]`.  `head_name` is the `.name` of the
action object in slot 0; `allowed` holds the outcome objects in slots
1..k, so a JS array of length 1 corresponds to `allowed = []`. -/
structure TemplEntry where
  head_name : String
  allowed : List Producer

/-- Embedding of `action_fits_pattern(action_taken, valid_action)` from harness.js
lines 122-137: a template entry with no outcome constraints accepts any
outcome; otherwise the recorded outcome must be reference-identical
(pid-identical) to one of the listed outcomes. -/
def action_fits_pattern (action_taken : Entry) (valid_action : TemplEntry) : Bool :=
  if valid_action.allowed.length == 0 then
    true
  else
    valid_action.allowed.any (fun valid_outcome => valid_outcome.pid == action_taken.outcome.pid)

/-- The position-by-position loop of `sequence_fits_pattern`
(harness.js lines 106-117), assuming the length check already passed. -/
def fits_from : List Entry → List TemplEntry → Bool
  | [], _ => true
  | _ :: _, [] => true
  | a :: as, v :: vs =>
    if a.name != v.head_name then false
    else if !(action_fits_pattern a v) then false
    else fits_from as vs

/-- Embedding of `sequence_fits_pattern(sequence, valid_sequence)` from harness.js
lines 101-120: equal lengths, then the positional loop. -/
def sequence_fits_pattern (sequence : List Entry) (valid_sequence : List TemplEntry) : Bool :=
  if sequence.length != valid_sequence.length then false
  else fits_from sequence valid_sequence

/-- Embedding of `is_valid_sequence(sequence, valid_sequences)` from harness.js lines
91-99: a flag starting `false`, set to `true` by any template the
sequence fits (the source visits every template; the flag never
reverts). -/
def is_valid_sequence (sequence : List Entry) (valid_sequences : List (List TemplEntry)) : Bool :=
  valid_sequences.foldl
    (fun is_valid valid_sequence =>
      if sequence_fits_pattern sequence valid_sequence then true else is_valid)
    false

/-- Embedding of `describe_permutation(permutation)` from harness.js lines 139-141. -/
def describe_permutation (permutation : List Entry) : String :=
  String.intercalate "\n            "
    (permutation.map (fun p => p.name ++ " -> " ++ p.outcome.pname))

/-- The failure entry pushed at harness.js lines 48-51 for a scenario
whose recorded sequence is invalid. -/
def failure_message (permutation : List Entry) (sequence : List Entry) : String :=
  "Pattern failed validation\n" ++
  "  Scenario: " ++ describe_permutation permutation ++ "\n" ++
  "  Sequence: " ++ String.intercalate ", " (sequence.map (fun s => s.name))

/-- Observable events of one `test_correctness` run, used to state the
temporal claims: the synchronous invocation of the pattern under test
for scenario `k` (harness.js line 40), the settlement (pending to
fulfilled/rejected transition) of promise cell `p`, and the execution of
the validation handler of scenario `k` (harness.js lines 46-53). -/
inductive Event where
  | evInvoke (k : Nat)
  | evSettle (p : Nat)
  | evValidate (k : Nat)
deriving DecidableEq, Repr

/-- Deep embedding of the pattern under test: the operations such a
callable can perform against the harness.  `callAct i k` invokes the
i-th tracked callable and continues with its result; `mkResolved v k`
is `Promise.resolve(v)`; `thenP p f k` is `p.then(f)` (continuing with
the derived promise); `ret`/`throwE` end the current synchronous
stretch by returning or throwing. -/
inductive Prog where
  | ret (v : Val)
  | throwE (v : Val)
  | callAct (i : Nat) (k : Val → Prog)
  | mkResolved (v : Val) (k : Val → Prog)
  | thenP (p : Val) (onF : Val → Prog) (k : Val → Prog)

/-- The handlers that can be attached to a promise in this program.
`hProg` is a continuation of the pattern under test, bound to the
scenario whose tracked callables it closes over; `hResolve w` is the
`resolve` capability of the promise allocated by `wait_for`
(harness.js line 72); `hValidate k` is the validation closure of
scenario `k` (lines 46-53); `hFinal` the aggregation closure
(lines 56-61); `hCatch` the top-level catch (lines 62-65). -/
inductive MHandler where
  | hProg (scen : Nat) (k : Val → Prog)
  | hResolve (tgt : Nat)
  | hValidate (scen : Nat)
  | hFinal
  | hCatch

/-- A `then`-reaction registered on a pending promise: optional
fulfillment and rejection handlers (a non-function argument to `then`
is ignored by the Promises/A+ library, leaving `none` = pass-through),
and the derived promise the handler's result resolves. -/
structure Reaction where
  onF : Option MHandler
  onR : Option MHandler
  target : Nat

/-- One queued microtask: run `h` (or pass through when `none`) on the
settlement value `arg` (`rejected` tells which way the source promise
settled), then settle promise `target` with the outcome. -/
structure MTask where
  h : Option MHandler
  arg : Val
  rejected : Bool
  target : Nat

/-- A promise cell: pending (with the reactions subscribed so far, in
subscription order), fulfilled, or rejected. -/
inductive PromState where
  | pending (reactions : List Reaction)
  | fulfilled (v : Val)
  | rejected (v : Val)

/-- Holds (as `true`) exactly when the promise has settled. -/
def PromState.settledB : PromState → Bool
  | .pending _ => false
  | .fulfilled _ => true
  | .rejected _ => true

/-- The machine state: the promise heap, the FIFO microtask queue, the
per-scenario call sequences (`sequence` arrays of harness.js line 28),
the shared `failures` array (line 18), and the event trace. -/
structure MState where
  promises : List PromState
  queue : List MTask
  sequences : List (List Entry)
  failures : List String
  events : List Event

/-- The caller-supplied inputs of one `test_correctness` call. -/
structure Env where
  actions : List ActionD
  valid_sequences : List (List TemplEntry)

/-- The scenarios of a run: the permutations enumerated at
harness.js line 22, in enumeration order. -/
def scenarios (env : Env) : List (List Entry) :=
  all_permutations env.actions

def logEvent (e : Event) (s : MState) : MState :=
  { s with events := s.events ++ [e] }

/-- Allocate a fresh promise cell, returning its index. -/
def allocProm (ps : PromState) (s : MState) : Nat × MState :=
  (s.promises.length, { s with promises := s.promises ++ [ps] })

/-- Read a promise cell (out-of-range reads yield a harmless settled
dummy; all reads in the development are in range). -/
def getProm (s : MState) (p : Nat) : PromState :=
  s.promises.getD p (.fulfilled .vUnit)

def setProm (s : MState) (p : Nat) (st : PromState) : MState :=
  { s with promises := s.promises.set p st }

/-- Subscribe a reaction to promise `p`: stored if `p` is pending,
otherwise the corresponding microtask is enqueued at once (the A+
library defers handlers on already-settled promises to the microtask
queue). -/
def subscribe (p : Nat) (onF onR : Option MHandler) (target : Nat) (s : MState) : MState :=
  match getProm s p with
  | .pending rs => setProm s p (.pending (rs ++ [⟨onF, onR, target⟩]))
  | .fulfilled v => { s with queue := s.queue ++ [⟨onF, v, false, target⟩] }
  | .rejected v => { s with queue := s.queue ++ [⟨onR, v, true, target⟩] }

/-- Embedding of `p.then(onF, onR)`: allocate the derived promise and subscribe. -/
def thenPromise (p : Nat) (onF onR : Option MHandler) (s : MState) : Nat × MState :=
  let (t, s) := allocProm (.pending []) s
  (t, subscribe p onF onR t s)

/-- Fulfill a pending promise: record the settlement event, store the
value, and enqueue one microtask per subscribed reaction (in
subscription order).  Settling an already-settled promise is a no-op. -/
def fulfillP (p : Nat) (v : Val) (s : MState) : MState :=
  match getProm s p with
  | .pending rs =>
    let s := setProm s p (.fulfilled v)
    let s := logEvent (.evSettle p) s
    { s with queue := s.queue ++ rs.map (fun r => ⟨r.onF, v, false, r.target⟩) }
  | _ => s

/-- Reject a pending promise (the rejection counterpart of `fulfillP`). -/
def rejectP (p : Nat) (v : Val) (s : MState) : MState :=
  match getProm s p with
  | .pending rs =>
    let s := setProm s p (.rejected v)
    let s := logEvent (.evSettle p) s
    { s with queue := s.queue ++ rs.map (fun r => ⟨r.onR, v, true, r.target⟩) }
  | _ => s

/-- Resolve a promise with a value: a promise value is adopted (a
pass-through reaction is subscribed to it), anything else fulfills. -/
def resolveP (p : Nat) (v : Val) (s : MState) : MState :=
  match v with
  | .vProm q => subscribe q none none p s
  | _ => fulfillP p v s

/-- Invoking the i-th tracked callable of scenario `scen`
(harness.js lines 32-35): unconditionally push the `{name, outcome}`
record onto that scenario's sequence, then run the chosen
outcome-generator, returning exactly what it produces (a value, a
thrown error, or a freshly allocated deferred). -/
def invokeTracked (env : Env) (scen : Nat) (i : Nat) (s : MState) :
    MState × Except Val Val :=
  match ((scenarios env).getD scen []).get? i with
  | none => (s, .error (.vStr "TypeError"))
  | some entry =>
    let s : MState :=
      { s with sequences :=
          s.sequences.set scen ((s.sequences.getD scen []) ++ [entry]) }
    match entry.outcome.behavior with
    | .bRet v => (s, .ok v)
    | .bThrow v => (s, .error v)
    | .bDefer init =>
      let st : PromState := match init with
        | .pFul v => .fulfilled v
        | .pRej v => .rejected v
        | .pPend => .pending []
      let (p, s) := allocProm st s
      (s, .ok (.vProm p))

/-- Run one synchronous stretch of the pattern under test for scenario
`scen`, returning the new state and the returned value or thrown
error. -/
def runProg (env : Env) (scen : Nat) : Prog → MState → MState × Except Val Val
  | .ret v, s => (s, .ok v)
  | .throwE v, s => (s, .error v)
  | .callAct i k, s =>
    match invokeTracked env scen i s with
    | (s, .ok v) => runProg env scen (k v) s
    | (s, .error e) => (s, .error e)
  | .mkResolved v k, s =>
    match v with
    | .vProm q => runProg env scen (k (.vProm q)) s
    | v =>
      let (p, s) := allocProm (.fulfilled v) s
      runProg env scen (k (.vProm p)) s
  | .thenP pv onF k, s =>
    match pv with
    | .vProm p =>
      let (t, s) := thenPromise p (some (.hProg scen onF)) none s
      runProg env scen (k (.vProm t)) s
    | _ => (s, .error (.vStr "TypeError"))

/-- Run one handler on a settlement value. -/
def runHandler (env : Env) (h : MHandler) (v : Val) (s : MState) :
    MState × Except Val Val :=
  match h with
  | .hProg scen k => runProg env scen (k v) s
  | .hResolve tgt => (resolveP tgt v s, .ok .vUnit)
  | .hValidate scen =>
    let s := logEvent (.evValidate scen) s
    let sequence := s.sequences.getD scen []
    if is_valid_sequence sequence env.valid_sequences then
      (s, .ok .vUnit)
    else
      ({ s with failures :=
          s.failures ++ [failure_message ((scenarios env).getD scen []) sequence] },
       .ok .vUnit)
  | .hFinal =>
    if s.failures.length > 0 then
      (s, .ok (.vRes false (some (String.intercalate "\n" s.failures))))
    else
      (s, .ok (.vRes true none))
  | .hCatch => (s, .ok v)

/-- Process one microtask: a missing handler passes the settlement
through to the target; otherwise the handler runs and its returned
value resolves (or its thrown error rejects) the target. -/
def processTask (env : Env) (t : MTask) (s : MState) : MState :=
  match t.h with
  | none => if t.rejected then rejectP t.target t.arg s else resolveP t.target t.arg s
  | some h =>
    match runHandler env h t.arg s with
    | (s, .ok v) => resolveP t.target v s
    | (s, .error e) => rejectP t.target e s

/-- Drain the microtask queue, FIFO, for at most `fuel` tasks. -/
def runMachine (env : Env) : Nat → MState → MState
  | 0, s => s
  | fuel + 1, s =>
    match s.queue with
    | [] => s
    | t :: ts => runMachine env fuel (processTask env t { s with queue := ts })

/-- Embedding of `wait_for(result)` from harness.js lines 68-75: allocate a promise
`w`, and from `Promise.resolve(result)` chain `.then(resolve)` and
`.catch(resolve)` so that `w` settles (always by resolution) once
`result` does.  `Promise.resolve` returns its argument unchanged when it
already is a promise.  Returns `w`. -/
def wait_for (result : Val) (s : MState) : Nat × MState :=
  let ws := allocProm (.pending []) s
  let prs : Nat × MState :=
    match result with
    | .vProm p => (p, ws.2)
    | v => allocProm (.fulfilled v) ws.2
  let t1s := thenPromise prs.1 (some (.hResolve ws.1)) none prs.2
  let t2s := thenPromise t1s.1 none (some (.hResolve ws.1)) t1s.2
  (ws.1, t2s.2)

/-- The chaining of harness.js lines 44-53, after the pattern has been
invoked and `result` holds its return value (`vUnit` when it threw):
`outcome = outcome.then(wait_for(result)).then(validation closure)`.
`wait_for(result)` is evaluated first (argument evaluation order), and
the promise it returns is handed to `.then`, which ignores a
non-function argument — hence the `none` pass-through reaction.
Returns the new `outcome` promise. -/
def after_invoke (k : Nat) (outc : Nat) (result : Val) (s : MState) : MState × Nat :=
  let ws := wait_for result s
  let q1s := thenPromise outc none none ws.2
  let q2s := thenPromise q1s.1 (some (.hValidate k)) none q1s.2
  (q2s.2, q2s.1)

/-- One iteration of the scenario loop (harness.js lines 22-54) for
scenario `k`: invoke the pattern under test synchronously with the
tracked callables of scenario `k` (recording the invocation event),
catch and discard a synchronous throw (leaving `result` at `null`),
then chain the validation of this scenario onto the `outcome` chain. -/
def scenario_step (env : Env) (pattern_to_test : Prog) (k : Nat)
    (acc : MState × Nat) : MState × Nat :=
  let run := runProg env k pattern_to_test (logEvent (.evInvoke k) acc.1)
  match run.2 with
  | .ok v => after_invoke k acc.2 v run.1
  | .error _ => after_invoke k acc.2 .vUnit run.1

/-- The synchronous phase of `test_correctness(actions, valid_sequences,
pattern_to_test)` (harness.js lines 16-66): start the chain at
`Promise.resolve()`, run the scenario loop over every permutation in
enumeration order, then chain the aggregation closure and the top-level
catch.  Returns the machine state (with the microtask queue loaded) and
the index of the returned promise. -/
def test_correctness (env : Env) (pattern_to_test : Prog) : MState × Nat :=
  let s0 : MState := ⟨[], [], (scenarios env).map (fun _ => []), [], []⟩
  let p0s := allocProm (.fulfilled .vUnit) s0
  let r :=
    (List.range (scenarios env).length).foldl
      (fun acc k => scenario_step env pattern_to_test k acc) (p0s.2, p0s.1)
  let f1s := thenPromise r.2 (some .hFinal) none r.1
  let f2s := thenPromise f1s.1 none (some .hCatch) f1s.2
  (f2s.2, f2s.1)

/-- Run `test_correctness` and then drain up to `fuel` microtasks. -/
def runTC (env : Env) (pattern_to_test : Prog) (fuel : Nat) : MState × Nat :=
  (runMachine env fuel (test_correctness env pattern_to_test).1,
   (test_correctness env pattern_to_test).2)

/-- The state of the promise `test_correctness` returned, after `fuel`
microtasks. -/
def finalResult (env : Env) (pattern_to_test : Prog) (fuel : Nat) : PromState :=
  getProm (runTC env pattern_to_test fuel).1 (runTC env pattern_to_test fuel).2

/-- The observable `Result` of a run: `some (passed, description)` when
the returned promise has fulfilled with a result record, `none`
otherwise. -/
def obsResult (env : Env) (pattern_to_test : Prog) (fuel : Nat) :
    Option (Bool × Option String) :=
  match finalResult env pattern_to_test fuel with
  | .fulfilled (.vRes p d) => some (p, d)
  | _ => none

/-! ### Properties of the permutation generator -/

/-- The product of the outcome counts of a list of actions. -/
def prodOutcomes (as : List ActionD) : Nat :=
  (as.map (fun a => a.outcomes.length)).prod

theorem sum_map_constant {α : Type} (l : List α) (c : Nat) :
    (l.map (fun _ => c)).sum = l.length * c := by
  induction l with
  | nil => simp
  | cons x xs ih => simp [ih, Nat.succ_mul, Nat.add_comm]

theorem length_entries (a : ActionD) : (entries a).length = a.outcomes.length := by
  simp [entries]

theorem length_all_permutations (as : List ActionD) :
    (all_permutations as).length = prodOutcomes as := by
  induction as with
  | nil => simp [all_permutations, prodOutcomes]
  | cons a rest ih =>
    simp [all_permutations, prodOutcomes, List.length_flatMap, Function.comp_def,
      ih, sum_map_constant, length_entries]

/-- Pointwise description of one permutation: entry `i` carries the name
of action `i` and one of its declared outcomes. -/
def PermOf (as : List ActionD) (p : List Entry) : Prop :=
  List.Forall₂ (fun a e => e.name = a.name ∧ e.outcome ∈ a.outcomes) as p

theorem mem_entries_iff (a : ActionD) (e : Entry) :
    e ∈ entries a ↔ e.name = a.name ∧ e.outcome ∈ a.outcomes := by
  cases e with
  | mk n o =>
    simp only [entries, List.mem_map, Entry.mk.injEq]
    constructor
    · rintro ⟨o', ho', h1, h2⟩
      exact ⟨h1.symm, h2 ▸ ho'⟩
    · rintro ⟨h1, h2⟩
      exact ⟨o, h2, h1.symm, rfl⟩

theorem mem_all_permutations (as : List ActionD) (p : List Entry) :
    p ∈ all_permutations as ↔ PermOf as p := by
  induction as generalizing p with
  | nil =>
    simp [all_permutations, PermOf, List.forall₂_nil_left_iff, eq_comm]
  | cons a rest ih =>
    simp only [all_permutations, List.mem_flatMap, List.mem_map, PermOf]
    constructor
    · rintro ⟨e, he, q, hq, rfl⟩
      exact List.Forall₂.cons ((mem_entries_iff a e).1 he) ((ih q).1 hq)
    · intro h
      cases h with
      | cons h1 h2 =>
        exact ⟨_, (mem_entries_iff a _).2 h1, _, (ih _).2 h2, rfl⟩

/-- Decides that a choice vector picks, for every action, the index of
one of its declared outcomes. -/
def ChoicesB : List ActionD → List Nat → Bool
  | [], [] => true
  | a :: as, c :: cs => decide (c < a.outcomes.length) && ChoicesB as cs
  | _, _ => false

def dummyProducer : Producer := ⟨"", 0, .bRet .vUnit⟩

def dummyEntry : Entry := ⟨"", dummyProducer⟩

/-- The permutation selected by a choice vector: action `i` paired with
its outcome number `cs i`. -/
def choicePerm : List ActionD → List Nat → List Entry
  | a :: as, c :: cs => ⟨a.name, a.outcomes.getD c dummyProducer⟩ :: choicePerm as cs
  | _, _ => []

/-- The flat position of a choice vector in nested enumeration order:
the choice for the first action has the largest weight and the choice
for the last action has weight 1 (the last action varies fastest). -/
def flatIndex : List ActionD → List Nat → Nat
  | _ :: as, c :: cs => c * prodOutcomes as + flatIndex as cs
  | _, _ => 0

theorem flatIndex_lt (as : List ActionD) (cs : List Nat)
    (h : ChoicesB as cs = true) : flatIndex as cs < prodOutcomes as := by
  induction as generalizing cs with
  | nil =>
    cases cs with
    | nil => simp [flatIndex, prodOutcomes]
    | cons c cs => simp [ChoicesB] at h
  | cons a rest ih =>
    cases cs with
    | nil => simp [ChoicesB] at h
    | cons c cs =>
      simp only [ChoicesB, Bool.and_eq_true, decide_eq_true_eq] at h
      have hP := ih cs h.2
      calc flatIndex (a :: rest) (c :: cs)
          = c * prodOutcomes rest + flatIndex rest cs := rfl
        _ < c * prodOutcomes rest + prodOutcomes rest := Nat.add_lt_add_left hP _
        _ = (c + 1) * prodOutcomes rest := by ring
        _ ≤ a.outcomes.length * prodOutcomes rest := Nat.mul_le_mul_right _ (by omega)
        _ = prodOutcomes (a :: rest) := by simp [prodOutcomes]

theorem getElem?_flatMap_blocks (l : List Entry) (L : List (List Entry))
    (q r : Nat) (hq : q < l.length) (hr : r < L.length) :
    (l.flatMap (fun e => L.map (fun p => e :: p)))[q * L.length + r]? =
      some (l.getD q dummyEntry :: L.getD r []) := by
  induction l generalizing q with
  | nil => simp at hq
  | cons e l' ih =>
    cases q with
    | zero =>
      have hmap : r < (L.map (fun p => e :: p)).length := by
        simpa using hr
      simp only [List.flatMap_cons, Nat.zero_mul, Nat.zero_add,
        List.getElem?_append, hmap, if_pos, List.getElem?_map,
        List.getElem?_eq_getElem hr, Option.map_some']
      simp [List.getD, List.getElem?_eq_getElem hr]
    | succ q' =>
      have hq' : q' < l'.length := by simpa using hq
      have harith : (q' + 1) * L.length + r = L.length + (q' * L.length + r) := by
        ring
      have hge : (L.map (fun p => e :: p)).length ≤ (q' + 1) * L.length + r := by
        simp only [List.length_map]
        omega
      rw [List.flatMap_cons, harith]
      rw [List.getElem?_append_right (by simp)]
      simp only [List.length_map, Nat.add_sub_cancel_left]
      simpa [List.getD] using ih q' hq'

theorem entries_getD (a : ActionD) (c : Nat) (hc : c < a.outcomes.length) :
    (entries a).getD c dummyEntry = ⟨a.name, a.outcomes.getD c dummyProducer⟩ := by
  simp [entries, List.getD, List.getElem?_map,
    List.getElem?_eq_getElem hc]

theorem all_permutations_getElem?_flatIndex (as : List ActionD) (cs : List Nat)
    (h : ChoicesB as cs = true) :
    (all_permutations as)[flatIndex as cs]? = some (choicePerm as cs) := by
  induction as generalizing cs with
  | nil =>
    cases cs with
    | nil => rfl
    | cons c cs => simp [ChoicesB] at h
  | cons a rest ih =>
    cases cs with
    | nil => simp [ChoicesB] at h
    | cons c cs =>
      simp only [ChoicesB, Bool.and_eq_true, decide_eq_true_eq] at h
      have hq : c < (entries a).length := by
        simpa [length_entries] using h.1
      have hr : flatIndex rest cs < (all_permutations rest).length := by
        rw [length_all_permutations]
        exact flatIndex_lt rest cs h.2
      have hstep :
          (all_permutations (a :: rest))[c * (all_permutations rest).length + flatIndex rest cs]? =
            some ((entries a).getD c dummyEntry :: (all_permutations rest).getD (flatIndex rest cs) []) :=
        getElem?_flatMap_blocks (entries a) (all_permutations rest) c (flatIndex rest cs) hq hr
      have hidx : flatIndex (a :: rest) (c :: cs) =
          c * (all_permutations rest).length + flatIndex rest cs := by
        simp [flatIndex, length_all_permutations]
      have htail : (all_permutations rest).getD (flatIndex rest cs) [] = choicePerm rest cs := by
        simp [List.getD, ih cs h.2]
      rw [hidx, hstep, entries_getD a c h.1, htail]
      rfl

/-! ### Properties of the sequence validator -/

theorem is_valid_sequence_any (sequence : List Entry)
    (valid_sequences : List (List TemplEntry)) :
    is_valid_sequence sequence valid_sequences =
      valid_sequences.any (fun ts => sequence_fits_pattern sequence ts) := by
  suffices h : ∀ (tss : List (List TemplEntry)) (b : Bool),
      tss.foldl (fun is_valid ts =>
        if sequence_fits_pattern sequence ts then true else is_valid) b =
        (b || tss.any (fun ts => sequence_fits_pattern sequence ts)) by
    simpa [is_valid_sequence] using h valid_sequences false
  intro tss
  induction tss with
  | nil => simp
  | cons ts tss ih =>
    intro b
    rw [List.foldl_cons, ih]
    by_cases hfit : sequence_fits_pattern sequence ts = true
    · simp [hfit]
    · simp only [Bool.not_eq_true] at hfit
      simp [hfit]

theorem action_fits_iff (a : Entry) (v : TemplEntry) :
    action_fits_pattern a v = true ↔
      (v.allowed = [] ∨ ∃ o ∈ v.allowed, o.pid = a.outcome.pid) := by
  unfold action_fits_pattern
  by_cases h : v.allowed.length = 0
  · simp [h, List.length_eq_zero.mp h]
  · have hne : v.allowed ≠ [] := by
      intro hc
      exact h (by simp [hc])
    have hbeq : (v.allowed.length == 0) = false := by
      simpa using h
    simp [hbeq, List.any_eq_true, hne]

theorem fits_from_forall₂ (sequence : List Entry) (vs : List TemplEntry)
    (h : sequence.length = vs.length) :
    fits_from sequence vs = true ↔
      List.Forall₂ (fun a v => a.name = v.head_name ∧ action_fits_pattern a v = true)
        sequence vs := by
  induction sequence generalizing vs with
  | nil =>
    cases vs with
    | nil => simp [fits_from]
    | cons v vs => simp at h
  | cons a as ih =>
    cases vs with
    | nil => simp at h
    | cons v vs =>
      have h' : as.length = vs.length := by simpa using h
      by_cases hn : a.name = v.head_name
      · by_cases hf : action_fits_pattern a v = true
        · simp [fits_from, hn, hf, List.forall₂_cons, ih vs h']
        · simp only [Bool.not_eq_true] at hf
          simp [fits_from, hn, hf, List.forall₂_cons]
      · simp [fits_from, bne_iff_ne, hn, List.forall₂_cons]

/-- The matching condition of the claim, stated positionally: equal
lengths, and at every position the action names agree while the
recorded outcome is unconstrained or identical to an allowed one. -/
def SpecMatch (sequence : List Entry) (ts : List TemplEntry) : Prop :=
  sequence.length = ts.length ∧
  ∀ (i : Nat) (h1 : i < sequence.length) (h2 : i < ts.length),
    (sequence.get ⟨i, h1⟩).name = (ts.get ⟨i, h2⟩).head_name ∧
    ((ts.get ⟨i, h2⟩).allowed = [] ∨
      ∃ o ∈ (ts.get ⟨i, h2⟩).allowed, o.pid = (sequence.get ⟨i, h1⟩).outcome.pid)

theorem sequence_fits_iff (sequence : List Entry) (vs : List TemplEntry) :
    sequence_fits_pattern sequence vs = true ↔ SpecMatch sequence vs := by
  unfold sequence_fits_pattern
  by_cases h : sequence.length = vs.length
  · have hne : (sequence.length != vs.length) = false := by
      simp [h]
    rw [if_neg (by simp [hne])]
    rw [fits_from_forall₂ sequence vs h, List.forall₂_iff_get]
    unfold SpecMatch
    constructor
    · rintro ⟨h1, h2⟩
      refine ⟨h1, fun i hi1 hi2 => ?_⟩
      obtain ⟨hn, hf⟩ := h2 i hi1 hi2
      exact ⟨hn, (action_fits_iff _ _).1 hf⟩
    · rintro ⟨h1, h2⟩
      refine ⟨h1, fun i hi1 hi2 => ?_⟩
      obtain ⟨hn, hf⟩ := h2 i hi1 hi2
      exact ⟨hn, (action_fits_iff _ _).2 hf⟩
  · have hne : (sequence.length != vs.length) = true := by
      simpa using h
    rw [if_pos hne]
    simp only [Bool.false_eq_true, false_iff]
    intro hc
    exact h hc.1

/-! ### Event-trace lemmas for the machine -/

/-- Holds (as `true`) exactly for pattern-invocation events. -/
def Event.isInvoke : Event → Bool
  | .evInvoke _ => true
  | _ => false

theorem events_subscribe (p : Nat) (onF onR : Option MHandler) (tgt : Nat) (s : MState) :
    (subscribe p onF onR tgt s).events = s.events := by
  unfold subscribe
  cases getProm s p <;> rfl

theorem events_thenPromise (p : Nat) (onF onR : Option MHandler) (s : MState) :
    ((thenPromise p onF onR s).2).events = s.events := by
  unfold thenPromise allocProm
  exact events_subscribe p onF onR s.promises.length _

theorem events_invokeTracked (env : Env) (scen i : Nat) (s : MState) :
    ((invokeTracked env scen i s).1).events = s.events := by
  unfold invokeTracked
  cases ((scenarios env).getD scen []).get? i with
  | none => rfl
  | some entry =>
    cases entry with
    | mk nm oc =>
      cases oc with
      | mk pn pi bh =>
        cases bh with
        | bRet v => rfl
        | bThrow v => rfl
        | bDefer init => cases init <;> rfl

theorem events_runProg (env : Env) (scen : Nat) (P : Prog) :
    ∀ s : MState, ((runProg env scen P s).1).events = s.events := by
  induction P with
  | ret v => intro s; rfl
  | throwE v => intro s; rfl
  | callAct i k ih =>
    intro s
    have hiv := events_invokeTracked env scen i s
    unfold runProg
    cases hinv : invokeTracked env scen i s with
    | mk s' r =>
      rw [hinv] at hiv
      cases r with
      | ok v => exact (ih v s').trans hiv
      | error e => exact hiv
  | mkResolved v k ih =>
    intro s
    unfold runProg
    cases v with
    | vProm q => exact ih _ s
    | vUnit => exact ih _ _
    | vNat n => exact ih _ _
    | vStr str => exact ih _ _
    | vRes b d => exact ih _ _
  | thenP pv onF k ihf ih =>
    intro s
    unfold runProg
    cases pv with
    | vProm p =>
      exact (ih _ _).trans (events_thenPromise p (some (.hProg scen onF)) none s)
    | vUnit => rfl
    | vNat n => rfl
    | vStr str => rfl
    | vRes b d => rfl

theorem events_wait_for (r : Val) (s : MState) :
    ((wait_for r s).2).events = s.events := by
  unfold wait_for allocProm
  cases r <;>
    simp [events_thenPromise, thenPromise, allocProm, events_subscribe]

theorem events_after_invoke (k outc : Nat) (r : Val) (s : MState) :
    ((after_invoke k outc r s).1).events = s.events := by
  unfold after_invoke
  simp [events_thenPromise, thenPromise, allocProm, events_subscribe, events_wait_for]

theorem events_scenario_step (env : Env) (P : Prog) (k : Nat) (acc : MState × Nat) :
    ((scenario_step env P k acc).1).events = acc.1.events ++ [Event.evInvoke k] := by
  unfold scenario_step
  cases hrun : runProg env k P (logEvent (.evInvoke k) acc.1) with
  | mk s1 r =>
    have h1 : s1.events = acc.1.events ++ [Event.evInvoke k] := by
      have := events_runProg env k P (logEvent (.evInvoke k) acc.1)
      rw [hrun] at this
      simpa [logEvent] using this
    cases r with
    | ok v => simpa [events_after_invoke] using h1
    | error e => simpa [events_after_invoke] using h1

theorem events_scenario_fold (env : Env) (P : Prog) (l : List Nat) :
    ∀ acc : MState × Nat,
      ((l.foldl (fun acc k => scenario_step env P k acc) acc).1).events =
        acc.1.events ++ l.map Event.evInvoke := by
  induction l with
  | nil => intro acc; simp
  | cons k l ih =>
    intro acc
    rw [List.foldl_cons, ih, events_scenario_step]
    simp


theorem events_test_correctness (env : Env) (P : Prog) :
    ((test_correctness env P).1).events =
      (List.range (scenarios env).length).map Event.evInvoke := by
  simp only [test_correctness]
  rw [events_thenPromise, events_thenPromise, events_scenario_fold]
  rfl

/-- The machine run only appends events, and never appends a
pattern-invocation event (those happen only in the synchronous phase of
`test_correctness`). -/
def EventsExt (s s' : MState) : Prop :=
  ∃ t, s'.events = s.events ++ t ∧ ∀ e ∈ t, e.isInvoke = false

theorem eventsExt_refl (s : MState) : EventsExt s s :=
  ⟨[], by simp, by simp⟩

theorem eventsExt_of_eq {s s' : MState} (h : s'.events = s.events) : EventsExt s s' :=
  ⟨[], by simp [h], by simp⟩

theorem eventsExt_trans {s1 s2 s3 : MState}
    (h1 : EventsExt s1 s2) (h2 : EventsExt s2 s3) : EventsExt s1 s3 := by
  obtain ⟨t1, ht1, hn1⟩ := h1
  obtain ⟨t2, ht2, hn2⟩ := h2
  refine ⟨t1 ++ t2, by simp [ht2, ht1], ?_⟩
  intro e he
  rcases List.mem_append.1 he with h | h
  · exact hn1 e h
  · exact hn2 e h

theorem eventsExt_fulfillP (p : Nat) (v : Val) (s : MState) :
    EventsExt s (fulfillP p v s) := by
  unfold fulfillP
  cases getProm s p with
  | pending rs =>
    exact ⟨[.evSettle p], by simp [logEvent, setProm], by simp [Event.isInvoke]⟩
  | fulfilled w => exact eventsExt_refl s
  | rejected w => exact eventsExt_refl s

theorem eventsExt_rejectP (p : Nat) (v : Val) (s : MState) :
    EventsExt s (rejectP p v s) := by
  unfold rejectP
  cases getProm s p with
  | pending rs =>
    exact ⟨[.evSettle p], by simp [logEvent, setProm], by simp [Event.isInvoke]⟩
  | fulfilled w => exact eventsExt_refl s
  | rejected w => exact eventsExt_refl s

theorem eventsExt_resolveP (p : Nat) (v : Val) (s : MState) :
    EventsExt s (resolveP p v s) := by
  unfold resolveP
  cases v with
  | vProm q => exact eventsExt_of_eq (events_subscribe q none none p s)
  | vUnit => exact eventsExt_fulfillP p _ s
  | vNat n => exact eventsExt_fulfillP p _ s
  | vStr str => exact eventsExt_fulfillP p _ s
  | vRes b d => exact eventsExt_fulfillP p _ s

theorem eventsExt_runHandler (env : Env) (h : MHandler) (v : Val) (s : MState) :
    EventsExt s ((runHandler env h v s).1) := by
  cases h with
  | hProg scen k => exact eventsExt_of_eq (events_runProg env scen (k v) s)
  | hResolve tgt => exact eventsExt_resolveP tgt v s
  | hValidate scen =>
    refine ⟨[.evValidate scen], ?_, by simp [Event.isInvoke]⟩
    simp only [runHandler]
    split <;> rfl
  | hFinal =>
    unfold runHandler
    by_cases hf : s.failures.length > 0
    · simp only [if_pos hf]
      exact eventsExt_refl s
    · simp only [if_neg hf]
      exact eventsExt_refl s
  | hCatch => exact eventsExt_refl s

theorem eventsExt_processTask (env : Env) (t : MTask) (s : MState) :
    EventsExt s (processTask env t s) := by
  cases t with
  | mk th targ trej ttgt =>
    cases th with
    | none =>
      unfold processTask
      dsimp only
      by_cases hr : trej = true
      · simp only [hr, if_pos]
        exact eventsExt_rejectP ttgt targ s
      · simp only [Bool.not_eq_true] at hr
        simp only [hr, Bool.false_eq_true, if_false]
        exact eventsExt_resolveP ttgt targ s
    | some hh =>
      unfold processTask
      dsimp only
      have h1 := eventsExt_runHandler env hh targ s
      cases hrun : runHandler env hh targ s with
      | mk s' r =>
        rw [hrun] at h1
        cases r with
        | ok v =>
          dsimp only
          exact eventsExt_trans h1 (eventsExt_resolveP ttgt v s')
        | error e =>
          dsimp only
          exact eventsExt_trans h1 (eventsExt_rejectP ttgt e s')

theorem eventsExt_runMachine (env : Env) (fuel : Nat) :
    ∀ s : MState, EventsExt s (runMachine env fuel s) := by
  induction fuel with
  | zero => intro s; exact eventsExt_refl s
  | succ fuel ih =>
    intro s
    unfold runMachine
    cases hq : s.queue with
    | nil => exact eventsExt_refl s
    | cons t ts =>
      have h1 : EventsExt s (processTask env t { s with queue := ts }) :=
        eventsExt_trans (eventsExt_of_eq (by simp))
          (eventsExt_processTask env t { s with queue := ts })
      exact eventsExt_trans h1 (ih _)

theorem runMachine_nil (env : Env) (fuel : Nat) (s : MState) (h : s.queue = []) :
    runMachine env fuel s = s := by
  cases fuel with
  | zero => rfl
  | succ fuel =>
    unfold runMachine
    rw [h]

theorem runMachine_add (env : Env) (a b : Nat) :
    ∀ s : MState, runMachine env (a + b) s = runMachine env b (runMachine env a s) := by
  induction a with
  | zero => intro s; rw [Nat.zero_add]; rfl
  | succ a ih =>
    intro s
    have hstep : a + 1 + b = (a + b) + 1 := by omega
    rw [hstep]
    cases hq : s.queue with
    | nil =>
      rw [runMachine_nil env ((a + b) + 1) s hq, runMachine_nil env (a + 1) s hq,
        runMachine_nil env b s hq]
    | cons t ts =>
      have hL : runMachine env ((a + b) + 1) s =
          runMachine env (a + b) (processTask env t { s with queue := ts }) := by
        conv_lhs => unfold runMachine
        rw [hq]
      have hR : runMachine env (a + 1) s =
          runMachine env a (processTask env t { s with queue := ts }) := by
        conv_lhs => unfold runMachine
        rw [hq]
      rw [hL, hR]
      exact ih (processTask env t { s with queue := ts })

/-! ### Support lemmas for the scenario runner -/

theorem getD_set_self {α : Type} {l : List α} {i : Nat} {x d : α}
    (h : i < l.length) : (l.set i x).getD i d = x := by
  rw [List.getD_eq_getElem?_getD, List.getElem?_set_self h]
  rfl

theorem getProm_pending_lt {s : MState} {tgt : Nat} {rs : List Reaction}
    (h : getProm s tgt = .pending rs) : tgt < s.promises.length := by
  by_contra hlt
  push_neg at hlt
  unfold getProm at h
  rw [List.getD_eq_getElem?_getD, List.getElem?_eq_none hlt] at h
  exact PromState.noConfusion h

theorem getProm_fulfillP_self {s : MState} {p : Nat} {rs : List Reaction}
    (v : Val) (h : getProm s p = .pending rs) :
    getProm (fulfillP p v s) p = .fulfilled v := by
  have hlt := getProm_pending_lt h
  unfold fulfillP
  rw [h]
  unfold getProm setProm logEvent
  dsimp only
  exact getD_set_self hlt

/-- A pattern whose synchronous invocation throws is handled exactly
like one that returned `null`: the thrown error is dropped and the
per-scenario chaining continues from the state the throw left behind. -/
theorem scenario_step_sync_throw (env : Env) (P : Prog) (k : Nat)
    (s : MState) (outc : Nat) (s1 : MState) (e : Val)
    (h : runProg env k P (logEvent (.evInvoke k) s) = (s1, .error e)) :
    scenario_step env P k (s, outc) = after_invoke k outc .vUnit s1 := by
  unfold scenario_step
  dsimp only
  rw [h]

theorem scenarios_nil_test_correctness (env : Env) (P : Prog)
    (h : scenarios env = []) :
    test_correctness env P =
      (⟨[.fulfilled .vUnit, .pending [⟨none, some .hCatch, 2⟩], .pending []],
        [⟨some .hFinal, .vUnit, false, 1⟩], [], [], []⟩, 2) := by
  simp [test_correctness, h, allocProm, thenPromise, subscribe, getProm, setProm]

theorem scenarios_nil_obsResult (env : Env) (P : Prog) (m : Nat)
    (h : scenarios env = []) :
    obsResult env P (2 + m) = some (true, none) := by
  have htc := scenarios_nil_test_correctness env P h
  have h1 : (test_correctness env P).1 =
      ⟨[.fulfilled .vUnit, .pending [⟨none, some .hCatch, 2⟩], .pending []],
        [⟨some .hFinal, .vUnit, false, 1⟩], [], [], []⟩ := by rw [htc]
  have h2 : (test_correctness env P).2 = 2 := by rw [htc]
  have hrun2 : runMachine env 2 (test_correctness env P).1 =
      ⟨[.fulfilled .vUnit, .fulfilled (.vRes true none), .fulfilled (.vRes true none)],
        [], [], [], [Event.evSettle 1, Event.evSettle 2]⟩ := by
    rw [h1]
    rfl
  have hnil : runMachine env m
      (⟨[.fulfilled .vUnit, .fulfilled (.vRes true none), .fulfilled (.vRes true none)],
        [], [], [], [Event.evSettle 1, Event.evSettle 2]⟩ : MState) =
      ⟨[.fulfilled .vUnit, .fulfilled (.vRes true none), .fulfilled (.vRes true none)],
        [], [], [], [Event.evSettle 1, Event.evSettle 2]⟩ :=
    runMachine_nil env m _ rfl
  unfold obsResult finalResult runTC
  rw [runMachine_add env 2 m ((test_correctness env P).1), hrun2, hnil, h2]
  rfl

/-! ### Concrete fixtures used by the closed statements below -/

def oOk : Producer := ⟨"ok", 1, .bRet (.vNat 7)⟩

def oFail : Producer := ⟨"fail", 2, .bThrow (.vStr "boom")⟩

def oDefer1 : Producer := ⟨"defer1", 3, .bDefer .pPend⟩

def oDefer2 : Producer := ⟨"defer2", 4, .bDefer .pPend⟩

def actA : ActionD := action "A" [oOk, oFail]

def actB : ActionD := action "B" [oOk]

/-- One action with two never-settling deferred outcomes, no templates. -/
def envDefer : Env := ⟨[action "a" [oDefer1, oDefer2]], []⟩

/-- The pattern that calls its single tracked callable and returns the
deferred value the outcome produced. -/
def patReturnCall : Prog := .callAct 0 (fun v => .ret v)

/-- Scenario 5 of the specification: a pattern that throws before
calling anything, with the empty template present. -/
def envThrow : Env := ⟨[actA], [[]]⟩

def patThrow : Prog := .throwE (.vStr "sync boom")

/-- One single-outcome action, no templates. -/
def envEmptyTempl : Env := ⟨[action "A" [oOk]], []⟩

def patCallOne : Prog := .callAct 0 (fun _ => .ret .vUnit)

/-- Two scenarios, both bound to fail (no templates). -/
def envTwoFail : Env := ⟨[actA], []⟩

/-- One action declaring zero outcomes. -/
def envZero : Env := ⟨[action "Z" []], [[]]⟩

/-! ### The claims -/

/-- C1.  For every ordered list of N actions with outcome-counts
`c_1..c_N`, `all_permutations` produces exactly the Cartesian product of
outcome choices: `prod c_i` permutations (`0` when some `c_i = 0`, and
exactly one empty permutation when `N = 0`), each of length N, each
preserving input action order (entry `i` names action `i` and carries
one of its outcomes), and visited in natural nested order: the
permutation at flat position `flatIndex` of a choice vector — where the
last action's choice has weight 1, i.e. varies fastest — picks exactly
the chosen outcome for every action. -/
theorem c1_permutation_generator_cartesian_product : ∀ as : List ActionD,
    (all_permutations as).length = prodOutcomes as
    ∧ ((∃ a ∈ as, a.outcomes = []) → all_permutations as = [])
    ∧ (as = [] → all_permutations as = [[]])
    ∧ (∀ p ∈ all_permutations as, p.length = as.length ∧
        ∀ (i : Nat) (h1 : i < p.length) (h2 : i < as.length),
          (p.get ⟨i, h1⟩).name = (as.get ⟨i, h2⟩).name ∧
          (p.get ⟨i, h1⟩).outcome ∈ (as.get ⟨i, h2⟩).outcomes)
    ∧ (∀ cs, ChoicesB as cs = true →
        (all_permutations as)[flatIndex as cs]? = some (choicePerm as cs)) := by
  intro as
  refine ⟨length_all_permutations as, ?_, ?_, ?_, ?_⟩
  · rintro ⟨a, ha, hz⟩
    rw [← List.length_eq_zero, length_all_permutations]
    unfold prodOutcomes
    rw [List.prod_eq_zero_iff]
    exact List.mem_map.2 ⟨a, ha, by simp [hz]⟩
  · rintro rfl
    rfl
  · intro p hp
    have hperm := (mem_all_permutations as p).1 hp
    obtain ⟨hlen, hget⟩ := List.forall₂_iff_get.1 hperm
    refine ⟨hlen.symm, fun i h1 h2 => ?_⟩
    obtain ⟨hn, ho⟩ := hget i h2 h1
    exact ⟨hn, ho⟩
  · exact fun cs h => all_permutations_getElem?_flatIndex as cs h

/-- Closed instance of C1: in the 2x1-outcome example the permutation
at flat index `1 * 1 + 0 = 1` picks the second outcome of the first
action and the only outcome of the second, and an action with zero
outcomes empties the product. -/
theorem c1_witness :
    (all_permutations [actA, actB])[1]? = some (choicePerm [actA, actB] [1, 0])
    ∧ all_permutations [actA, action "Z" []] = [] := by
  constructor
  · exact (c1_permutation_generator_cartesian_product [actA, actB]).2.2.2.2 [1, 0] (by decide)
  · exact (c1_permutation_generator_cartesian_product [actA, action "Z" []]).2.1
      ⟨action "Z" [], List.mem_cons_of_mem _ (List.mem_cons_self _ _), rfl⟩

/-- C2.  A recorded sequence is judged valid exactly when some template
of the list matches it: equal lengths and, at every position, equal
action names together with an unconstrained template entry (no listed
outcomes) or an identical (by object identity, `pid`) allowed outcome;
the match is strictly positional. -/
theorem c2_validator_matches_some_template
    (sequence : List Entry) (valid_sequences : List (List TemplEntry)) :
    is_valid_sequence sequence valid_sequences = true ↔
      ∃ ts ∈ valid_sequences, SpecMatch sequence ts := by
  rw [is_valid_sequence_any, List.any_eq_true]
  exact exists_congr fun ts => and_congr_right fun _ => sequence_fits_iff sequence ts

/-- Closed instance of C2 at a concrete sequence and template list. -/
theorem c2_witness :
    ∃ ts ∈ [[(⟨"A", [oOk]⟩ : TemplEntry)]], SpecMatch [⟨"A", oOk⟩] ts :=
  (c2_validator_matches_some_template [⟨"A", oOk⟩] [[⟨"A", [oOk]⟩]]).1 (by decide)

/-- C3.  Invoking the i-th tracked callable of a scenario first appends
the `{action, outcome}` record to that scenario's sequence —
unconditionally, in particular also when the producer throws or when it
returns a rejected/pending deferred — and only then evaluates the
chosen outcome producer, returning or propagating exactly what it
produces. -/
theorem c3_tracked_callable_appends_then_evaluates
    (env : Env) (scen i : Nat) (s : MState) (entry : Entry)
    (hget : ((scenarios env).getD scen []).get? i = some entry)
    (hlen : scen < s.sequences.length) :
    ((invokeTracked env scen i s).1.sequences.getD scen [] =
        s.sequences.getD scen [] ++ [entry])
    ∧ (∀ v, entry.outcome.behavior = .bRet v →
        (invokeTracked env scen i s).2 = .ok v ∧
        (invokeTracked env scen i s).1.promises = s.promises)
    ∧ (∀ e, entry.outcome.behavior = .bThrow e →
        (invokeTracked env scen i s).2 = .error e ∧
        (invokeTracked env scen i s).1.promises = s.promises)
    ∧ (∀ init, entry.outcome.behavior = .bDefer init →
        (invokeTracked env scen i s).2 = .ok (.vProm s.promises.length)) := by
  unfold invokeTracked
  rw [hget]
  dsimp only
  refine ⟨?_, ?_, ?_, ?_⟩
  · cases hb : entry.outcome.behavior with
    | bRet v =>
      dsimp only
      exact getD_set_self hlen
    | bThrow v =>
      dsimp only
      exact getD_set_self hlen
    | bDefer init =>
      dsimp only
      exact getD_set_self hlen
  · intro v hv
    rw [hv]
    exact ⟨rfl, rfl⟩
  · intro e he
    rw [he]
    exact ⟨rfl, rfl⟩
  · intro init hinit
    rw [hinit]
    cases init <;> rfl

/-- Closed instance of C3: invoking the tracked callable of the
`A -> fail` scenario records the call and propagates the thrown error. -/
theorem c3_witness :
    (invokeTracked envTwoFail 1 0 ⟨[], [], [[], []], [], []⟩).1.sequences.getD 1 [] =
      [] ++ [⟨"A", oFail⟩]
    ∧ (invokeTracked envTwoFail 1 0 ⟨[], [], [[], []], [], []⟩).2 =
        .error (.vStr "boom") := by
  obtain ⟨h1, _, h3, _⟩ := c3_tracked_callable_appends_then_evaluates envTwoFail 1 0
    ⟨[], [], [[], []], [], []⟩ ⟨"A", oFail⟩ rfl (by decide)
  exact ⟨h1, (h3 (.vStr "boom") rfl).1⟩

/-- C4 (amended).  Scenario processing is not strictly sequential: the
pattern under test is invoked for every scenario synchronously, in
enumeration order, during the initial call of `test_correctness` —
before any promise settles and before any validation runs; everything
asynchronous (settlements and validations) happens afterwards on the
microtask queue. -/
theorem c4_amended_invocations_all_upfront : ∀ (env : Env) (P : Prog) (fuel : Nat),
    ∃ t, (runTC env P fuel).1.events =
        (List.range (scenarios env).length).map Event.evInvoke ++ t
      ∧ ∀ e ∈ t, e.isInvoke = false := by
  intro env P fuel
  obtain ⟨t, ht, hn⟩ := eventsExt_runMachine env fuel (test_correctness env P).1
  refine ⟨t, ?_, hn⟩
  show (runMachine env fuel (test_correctness env P).1).events = _
  rw [ht, events_test_correctness]

/-- Counterexample to C4 as stated: with one action whose two outcomes
are never-settling deferreds and a pattern returning the deferred,
scenario 1's pattern invocation is the very next event after scenario
0's (no settlement and no validation between them), the deferred the
pattern returned for scenario 0 (promise cell 1, first conjunct) never
settles at all, and the engine nevertheless runs both validations and
computes a final result. -/
theorem c4_counterexample :
    (runProg envDefer 0 patReturnCall
        ⟨[.fulfilled .vUnit], [], [[], []], [], [.evInvoke 0]⟩).2 = .ok (.vProm 1)
    ∧ (runTC envDefer patReturnCall 30).1.events =
        [.evInvoke 0, .evInvoke 1, .evSettle 5, .evValidate 0, .evSettle 6,
         .evSettle 11, .evValidate 1, .evSettle 12, .evSettle 13, .evSettle 14]
    ∧ (getProm (runTC envDefer patReturnCall 30).1 1).settledB = false
    ∧ obsResult envDefer patReturnCall 30 =
        some (false, some ("Pattern failed validation\n  Scenario: a -> defer1\n  Sequence: a\nPattern failed validation\n  Scenario: a -> defer2\n  Sequence: a")) := by
  exact ⟨rfl, by decide, rfl, by decide⟩

/-- C5.  A pattern that throws synchronously is caught and the error
discarded: the per-scenario step is exactly the step that would have
been taken with `result = null`, continuing from the state (and thus
the partial sequence) the throw left behind; concretely, specification
scenario 5 (throwing pattern, empty template present) passes. -/
theorem c5_sync_throw_caught_and_discarded :
    (∀ (env : Env) (P : Prog) (k : Nat) (s : MState) (outc : Nat) (s1 : MState) (e : Val),
        runProg env k P (logEvent (.evInvoke k) s) = (s1, .error e) →
        scenario_step env P k (s, outc) = after_invoke k outc .vUnit s1)
    ∧ obsResult envThrow patThrow 30 = some (true, none) := by
  constructor
  · exact fun env P k s outc s1 e h => scenario_step_sync_throw env P k s outc s1 e h
  · decide

/-- Closed instance of C5: the throwing pattern's scenario step equals
the `result = null` chaining step. -/
theorem c5_witness :
    scenario_step envThrow patThrow 0 (⟨[.fulfilled .vUnit], [], [[], []], [], []⟩, 0) =
      after_invoke 0 0 .vUnit
        (logEvent (.evInvoke 0) ⟨[.fulfilled .vUnit], [], [[], []], [], []⟩) :=
  c5_sync_throw_caught_and_discarded.1 envThrow patThrow 0
    ⟨[.fulfilled .vUnit], [], [[], []], [], []⟩ 0
    (logEvent (.evInvoke 0) ⟨[.fulfilled .vUnit], [], [[], []], [], []⟩)
    (.vStr "sync boom") rfl

theorem failures_subscribe (p : Nat) (onF onR : Option MHandler) (tgt : Nat)
    (s : MState) : (subscribe p onF onR tgt s).failures = s.failures := by
  unfold subscribe
  cases getProm s p <;> rfl

theorem failures_fulfillP (p : Nat) (v : Val) (s : MState) :
    (fulfillP p v s).failures = s.failures := by
  unfold fulfillP
  cases getProm s p <;> rfl

theorem failures_rejectP (p : Nat) (v : Val) (s : MState) :
    (rejectP p v s).failures = s.failures := by
  unfold rejectP
  cases getProm s p <;> rfl

theorem failures_resolveP (p : Nat) (v : Val) (s : MState) :
    (resolveP p v s).failures = s.failures := by
  unfold resolveP
  cases v with
  | vProm q => exact failures_subscribe q none none p s
  | vUnit => exact failures_fulfillP p _ s
  | vNat n => exact failures_fulfillP p _ s
  | vStr str => exact failures_fulfillP p _ s
  | vRes b d => exact failures_fulfillP p _ s

theorem failures_thenPromise (p : Nat) (onF onR : Option MHandler) (s : MState) :
    ((thenPromise p onF onR s).2).failures = s.failures := by
  unfold thenPromise allocProm
  exact failures_subscribe p onF onR s.promises.length _

theorem failures_invokeTracked (env : Env) (scen i : Nat) (s : MState) :
    ((invokeTracked env scen i s).1).failures = s.failures := by
  unfold invokeTracked
  cases ((scenarios env).getD scen []).get? i with
  | none => rfl
  | some entry =>
    cases entry with
    | mk nm oc =>
      cases oc with
      | mk pn pi bh =>
        cases bh with
        | bRet v => rfl
        | bThrow v => rfl
        | bDefer init => cases init <;> rfl

theorem failures_runProg (env : Env) (scen : Nat) (P : Prog) :
    ∀ s : MState, ((runProg env scen P s).1).failures = s.failures := by
  induction P with
  | ret v => intro s; rfl
  | throwE v => intro s; rfl
  | callAct i k ih =>
    intro s
    have hiv := failures_invokeTracked env scen i s
    unfold runProg
    cases hinv : invokeTracked env scen i s with
    | mk s' r =>
      rw [hinv] at hiv
      cases r with
      | ok v => exact (ih v s').trans hiv
      | error e => exact hiv
  | mkResolved v k ih =>
    intro s
    unfold runProg
    cases v with
    | vProm q => exact ih _ s
    | vUnit => exact ih _ _
    | vNat n => exact ih _ _
    | vStr str => exact ih _ _
    | vRes b d => exact ih _ _
  | thenP pv onF k ihf ih =>
    intro s
    unfold runProg
    cases pv with
    | vProm p =>
      exact (ih _ _).trans (failures_thenPromise p (some (.hProg scen onF)) none s)
    | vUnit => rfl
    | vNat n => rfl
    | vStr str => rfl
    | vRes b d => rfl

/-- The shared `failures` array only ever grows by appending: entries
are recorded in temporal order and never reordered or removed. -/
def FailuresExt (s s' : MState) : Prop :=
  ∃ t, s'.failures = s.failures ++ t

theorem failuresExt_refl (s : MState) : FailuresExt s s :=
  ⟨[], by simp⟩

theorem failuresExt_of_eq {s s' : MState} (h : s'.failures = s.failures) :
    FailuresExt s s' :=
  ⟨[], by simp [h]⟩

theorem failuresExt_trans {s1 s2 s3 : MState}
    (h1 : FailuresExt s1 s2) (h2 : FailuresExt s2 s3) : FailuresExt s1 s3 := by
  obtain ⟨t1, ht1⟩ := h1
  obtain ⟨t2, ht2⟩ := h2
  exact ⟨t1 ++ t2, by simp [ht2, ht1]⟩

theorem failuresExt_runHandler (env : Env) (h : MHandler) (v : Val) (s : MState) :
    FailuresExt s ((runHandler env h v s).1) := by
  cases h with
  | hProg scen k => exact failuresExt_of_eq (failures_runProg env scen (k v) s)
  | hResolve tgt => exact failuresExt_of_eq (failures_resolveP tgt v s)
  | hValidate scen =>
    simp only [runHandler]
    split
    · exact failuresExt_of_eq (by simp [logEvent])
    · exact ⟨[failure_message ((scenarios env).getD scen [])
        (s.sequences.getD scen [])], by simp [logEvent]⟩
  | hFinal =>
    simp only [runHandler]
    split
    · exact failuresExt_refl s
    · exact failuresExt_refl s
  | hCatch => exact failuresExt_refl s

theorem failuresExt_processTask (env : Env) (t : MTask) (s : MState) :
    FailuresExt s (processTask env t s) := by
  cases t with
  | mk th targ trej ttgt =>
    cases th with
    | none =>
      unfold processTask
      dsimp only
      by_cases hr : trej = true
      · simp only [hr, if_pos]
        exact failuresExt_of_eq (failures_rejectP ttgt targ s)
      · simp only [Bool.not_eq_true] at hr
        simp only [hr, Bool.false_eq_true, if_false]
        exact failuresExt_of_eq (failures_resolveP ttgt targ s)
    | some hh =>
      unfold processTask
      dsimp only
      have h1 := failuresExt_runHandler env hh targ s
      cases hrun : runHandler env hh targ s with
      | mk s' r =>
        rw [hrun] at h1
        cases r with
        | ok v =>
          dsimp only
          exact failuresExt_trans h1 (failuresExt_of_eq (failures_resolveP ttgt v s'))
        | error e =>
          dsimp only
          exact failuresExt_trans h1 (failuresExt_of_eq (failures_rejectP ttgt e s'))

theorem failuresExt_runMachine (env : Env) (fuel : Nat) :
    ∀ s : MState, FailuresExt s (runMachine env fuel s) := by
  induction fuel with
  | zero => intro s; exact failuresExt_refl s
  | succ fuel ih =>
    intro s
    unfold runMachine
    cases hq : s.queue with
    | nil => exact failuresExt_refl s
    | cons t ts =>
      have h1 : FailuresExt s (processTask env t { s with queue := ts }) :=
        failuresExt_trans (failuresExt_of_eq (by simp))
          (failuresExt_processTask env t { s with queue := ts })
      exact failuresExt_trans h1 (ih _)

/-- C6.  The aggregation closure resolves with `{passed: true}` exactly
when no failures were recorded and otherwise with `{passed: false}` and
the newline-join of all failure entries; the validation closure appends
exactly one formatted entry (naming the permutation's chosen outcomes
and the comma-separated recorded call order) when the sequence is
invalid and nothing when it is valid; the failure list only ever grows
by appending, so the joined description lists entries in the order they
were recorded; concretely, a two-scenario run with both scenarios
failing reports both entries in enumeration order. -/
theorem c6_result_aggregation :
    (∀ (env : Env) (s : MState) (v : Val), s.failures = [] →
        runHandler env .hFinal v s = (s, .ok (.vRes true none)))
    ∧ (∀ (env : Env) (s : MState) (v : Val), s.failures ≠ [] →
        runHandler env .hFinal v s =
          (s, .ok (.vRes false (some (String.intercalate "\n" s.failures)))))
    ∧ (∀ (env : Env) (scen : Nat) (v : Val) (s : MState),
        is_valid_sequence (s.sequences.getD scen []) env.valid_sequences = false →
        (runHandler env (.hValidate scen) v s).1.failures =
          s.failures ++ [failure_message ((scenarios env).getD scen [])
            (s.sequences.getD scen [])])
    ∧ (∀ (env : Env) (scen : Nat) (v : Val) (s : MState),
        is_valid_sequence (s.sequences.getD scen []) env.valid_sequences = true →
        (runHandler env (.hValidate scen) v s).1.failures = s.failures)
    ∧ (∀ (env : Env) (fuel : Nat) (s : MState), FailuresExt s (runMachine env fuel s))
    ∧ obsResult envTwoFail patCallOne 30 =
        some (false, some ("Pattern failed validation\n  Scenario: A -> ok\n  Sequence: A\nPattern failed validation\n  Scenario: A -> fail\n  Sequence: A")) := by
  refine ⟨?_, ?_, ?_, ?_, fun env fuel s => failuresExt_runMachine env fuel s, by decide⟩
  · intro env s v h
    simp [runHandler, h]
  · intro env s v h
    have hpos : 0 < s.failures.length := List.length_pos.2 h
    simp [runHandler, hpos]
  · intro env scen v s h
    rw [List.getD_eq_getElem?_getD] at h
    simp [runHandler, logEvent, h]
  · intro env scen v s h
    rw [List.getD_eq_getElem?_getD] at h
    simp [runHandler, logEvent, h]

/-- Closed instance of C6: the aggregation closure on an empty failure
list resolves `{passed: true}`. -/
theorem c6_witness :
    runHandler envTwoFail .hFinal .vUnit ⟨[], [], [], [], []⟩ =
      (⟨[], [], [], [], []⟩, .ok (.vRes true none)) :=
  c6_result_aggregation.1 envTwoFail ⟨[], [], [], [], []⟩ .vUnit rfl

theorem length_promises_subscribe (p : Nat) (onF onR : Option MHandler) (tgt : Nat)
    (s : MState) :
    (subscribe p onF onR tgt s).promises.length = s.promises.length := by
  unfold subscribe
  cases getProm s p <;> simp [setProm]

theorem getProm_subscribe_ne (p : Nat) (onF onR : Option MHandler) (tgt : Nat)
    (s : MState) (q : Nat) (h : q ≠ p) :
    getProm (subscribe p onF onR tgt s) q = getProm s q := by
  unfold subscribe
  cases getProm s p with
  | pending rs =>
    unfold getProm setProm
    dsimp only
    rw [List.getD_eq_getElem?_getD, List.getD_eq_getElem?_getD,
      List.getElem?_set_ne (Ne.symm h)]
  | fulfilled v => rfl
  | rejected v => rfl

theorem getProm_subscribe_pending_nil (p : Nat) (onF onR : Option MHandler) (tgt : Nat)
    (s : MState) (h : getProm s p = .pending []) :
    getProm (subscribe p onF onR tgt s) p = .pending [⟨onF, onR, tgt⟩] := by
  have hlt := getProm_pending_lt h
  unfold subscribe
  rw [h]
  unfold getProm setProm
  dsimp only
  rw [List.getD_eq_getElem?_getD, List.getElem?_set_self hlt]
  rfl

theorem getProm_append (s : MState) (x : PromState) (q : Nat)
    (h : q < s.promises.length) :
    getProm { s with promises := s.promises ++ [x] } q = getProm s q := by
  unfold getProm
  dsimp only
  rw [List.getD_eq_getElem?_getD, List.getD_eq_getElem?_getD,
    List.getElem?_append_left h]

theorem length_promises_thenPromise (p : Nat) (onF onR : Option MHandler) (s : MState) :
    ((thenPromise p onF onR s).2).promises.length = s.promises.length + 1 := by
  unfold thenPromise allocProm
  dsimp only
  rw [length_promises_subscribe]
  simp

theorem thenPromise_fst_lt (p : Nat) (onF onR : Option MHandler) (s : MState) :
    (thenPromise p onF onR s).1 < ((thenPromise p onF onR s).2).promises.length := by
  rw [length_promises_thenPromise]
  exact Nat.lt_succ_self _

theorem after_invoke_outc_lt (k outc : Nat) (r : Val) (s : MState) :
    (after_invoke k outc r s).2 < ((after_invoke k outc r s).1).promises.length := by
  unfold after_invoke
  dsimp only
  exact thenPromise_fst_lt _ _ _ _

theorem scenario_step_outc_lt (env : Env) (P : Prog) (k : Nat) (acc : MState × Nat) :
    (scenario_step env P k acc).2 < ((scenario_step env P k acc).1).promises.length := by
  unfold scenario_step
  dsimp only
  cases hrun : runProg env k P (logEvent (.evInvoke k) acc.1) with
  | mk s1 r =>
    cases r with
    | ok v => exact after_invoke_outc_lt k acc.2 v s1
    | error e => exact after_invoke_outc_lt k acc.2 .vUnit s1

theorem fold_outc_lt (env : Env) (P : Prog) (l : List Nat) :
    ∀ acc : MState × Nat, acc.2 < acc.1.promises.length →
      (l.foldl (fun acc k => scenario_step env P k acc) acc).2 <
        ((l.foldl (fun acc k => scenario_step env P k acc) acc).1).promises.length := by
  induction l with
  | nil => exact fun acc h => h
  | cons k l ih =>
    intro acc _h
    rw [List.foldl_cons]
    exact ih _ (scenario_step_outc_lt env P k acc)

theorem tail_catch_reaction (s : MState) (o : Nat) (h : o < s.promises.length) :
    getProm (thenPromise ((thenPromise o (some .hFinal) none s).1) none (some .hCatch)
        ((thenPromise o (some .hFinal) none s).2)).2
      ((thenPromise ((thenPromise o (some .hFinal) none s).1) none (some .hCatch)
        ((thenPromise o (some .hFinal) none s).2)).1 - 1) =
      .pending [⟨none, some .hCatch,
        (thenPromise ((thenPromise o (some .hFinal) none s).1) none (some .hCatch)
          ((thenPromise o (some .hFinal) none s).2)).1⟩] := by
  have hne : o ≠ s.promises.length := Nat.ne_of_lt h
  have hlen1 : ((thenPromise o (some .hFinal) none s).2).promises.length
      = s.promises.length + 1 := length_promises_thenPromise o (some .hFinal) none s
  have hmid : getProm ((thenPromise o (some .hFinal) none s).2) s.promises.length
      = .pending [] := by
    show getProm (subscribe o (some .hFinal) none s.promises.length
        { s with promises := s.promises ++ [.pending []] }) s.promises.length = .pending []
    rw [getProm_subscribe_ne o (some .hFinal) none s.promises.length _ _ (Ne.symm hne)]
    unfold getProm
    dsimp only
    rw [List.getD_eq_getElem?_getD, List.getElem?_concat_length]
    rfl
  have hmid2 : getProm { (thenPromise o (some .hFinal) none s).2 with
      promises := ((thenPromise o (some .hFinal) none s).2).promises ++ [.pending []] }
      s.promises.length = .pending [] := by
    rw [getProm_append _ _ _ (by rw [hlen1]; omega)]
    exact hmid
  have hf2 : (thenPromise ((thenPromise o (some .hFinal) none s).1) none (some .hCatch)
      ((thenPromise o (some .hFinal) none s).2)).1 = s.promises.length + 1 := hlen1
  rw [hf2]
  show getProm (subscribe ((thenPromise o (some .hFinal) none s).1) none (some .hCatch)
      (((thenPromise o (some .hFinal) none s).2).promises.length)
      { (thenPromise o (some .hFinal) none s).2 with
        promises := ((thenPromise o (some .hFinal) none s).2).promises ++ [.pending []] })
    (s.promises.length + 1 - 1) = .pending [⟨none, some .hCatch, s.promises.length + 1⟩]
  have hidx : s.promises.length + 1 - 1 = s.promises.length := by omega
  rw [hidx]
  rw [show (thenPromise o (some MHandler.hFinal) none s).1 = s.promises.length from rfl]
  rw [getProm_subscribe_pending_nil _ none (some .hCatch) _ _ hmid2]
  rw [hlen1]

/-- In the state `test_correctness` hands to the machine, the reaction
subscribed on the promise right before the returned one is exactly the
top-level catch of harness.js lines 62-65, targeting the returned
promise. -/
theorem test_correctness_catch_reaction (env : Env) (P : Prog) :
    getProm (test_correctness env P).1 ((test_correctness env P).2 - 1) =
      .pending [⟨none, some .hCatch, (test_correctness env P).2⟩] := by
  have hinv := fold_outc_lt env P (List.range (scenarios env).length)
    ((allocProm (.fulfilled .vUnit) ⟨[], [], (scenarios env).map (fun _ => []), [], []⟩).2,
     (allocProm (.fulfilled .vUnit) ⟨[], [], (scenarios env).map (fun _ => []), [], []⟩).1)
    (by simp [allocProm])
  exact tail_catch_reaction _ _ hinv

/-- C7.  An error rejecting the harness's promise chain reaches the
top-level catch, whose handler returns the error value itself, so the
promise `test_correctness` returned is fulfilled — not rejected — with
the error verbatim, in place of a result record; the catch reaction is
universally the one subscription sitting right before the returned
promise. -/
theorem c7_engine_fault_returned_verbatim :
    (∀ (env : Env) (P : Prog),
        getProm (test_correctness env P).1 ((test_correctness env P).2 - 1) =
          .pending [⟨none, some .hCatch, (test_correctness env P).2⟩])
    ∧ ∀ (env : Env) (s : MState) (e : Val) (tgt : Nat) (rs : List Reaction),
      getProm s tgt = .pending rs →
      (∀ q, e ≠ .vProm q) →
      runHandler env .hCatch e s = (s, .ok e) ∧
      getProm (processTask env ⟨some .hCatch, e, true, tgt⟩ s) tgt = .fulfilled e := by
  refine ⟨test_correctness_catch_reaction, ?_⟩
  intro env s e tgt rs hp hne
  refine ⟨rfl, ?_⟩
  unfold processTask
  dsimp only
  show getProm (resolveP tgt e s) tgt = .fulfilled e
  unfold resolveP
  cases e with
  | vProm q => exact absurd rfl (hne q)
  | vUnit => exact getProm_fulfillP_self _ hp
  | vNat n => exact getProm_fulfillP_self _ hp
  | vStr str => exact getProm_fulfillP_self _ hp
  | vRes b d => exact getProm_fulfillP_self _ hp

/-- Closed instance of C7: a catch task fulfills its target with the
error value itself. -/
theorem c7_witness :
    runHandler envTwoFail .hCatch (.vStr "engine fault") ⟨[.pending []], [], [], [], []⟩ =
      (⟨[.pending []], [], [], [], []⟩, .ok (.vStr "engine fault"))
    ∧ getProm (processTask envTwoFail ⟨some .hCatch, .vStr "engine fault", true, 0⟩
        ⟨[.pending []], [], [], [], []⟩) 0 = .fulfilled (.vStr "engine fault") :=
  c7_engine_fault_returned_verbatim.2 envTwoFail ⟨[.pending []], [], [], [], []⟩
    (.vStr "engine fault") 0 [] rfl (fun _q h => Val.noConfusion h)

/-- C8.  If some supplied action has zero outcomes the Cartesian product
is empty: no scenario exists, the pattern under test is never invoked
(no invocation event ever appears), and `test_correctness` resolves to
`{passed: true}` rather than raising an error. -/
theorem c8_zero_outcomes_degenerate : ∀ (env : Env) (P : Prog) (a : ActionD),
    a ∈ env.actions → a.outcomes = [] →
    scenarios env = []
    ∧ (∀ fuel, 2 ≤ fuel → obsResult env P fuel = some (true, none))
    ∧ (∀ fuel, ∀ e ∈ (runTC env P fuel).1.events, e.isInvoke = false) := by
  intro env P a ha hz
  have hs : scenarios env = [] := by
    unfold scenarios
    rw [← List.length_eq_zero, length_all_permutations]
    unfold prodOutcomes
    rw [List.prod_eq_zero_iff]
    exact List.mem_map.2 ⟨a, ha, by simp [hz]⟩
  refine ⟨hs, ?_, ?_⟩
  · intro fuel hf
    obtain ⟨m, hm⟩ := Nat.le.dest hf
    rw [← hm]
    exact scenarios_nil_obsResult env P m hs
  · intro fuel e he
    obtain ⟨t, ht, hn⟩ := eventsExt_runMachine env fuel (test_correctness env P).1
    have hone : (runTC env P fuel).1.events = t := by
      show (runMachine env fuel (test_correctness env P).1).events = t
      rw [ht, events_test_correctness, hs]
      simp
    rw [hone] at he
    exact hn e he

/-- Closed instance of C8: one zero-outcome action yields no scenario
and a passing result. -/
theorem c8_witness :
    scenarios envZero = [] ∧ obsResult envZero patCallOne 30 = some (true, none) := by
  obtain ⟨h1, h2, _⟩ := c8_zero_outcomes_degenerate envZero patCallOne (action "Z" [])
    (List.mem_cons_self _ _) rfl
  exact ⟨h1, h2 30 (by omega)⟩

/-- C9.  The engine is deterministic: two runs of `test_correctness` on
identical inputs (actions, templates, pattern, fuel) produce the same
observable result — the same passed flag, and the same description when
failing. -/
theorem c9_deterministic_runs : ∀ (env : Env) (P : Prog) (fuel : Nat)
    (r1 r2 : Option (Bool × Option String)),
    r1 = obsResult env P fuel → r2 = obsResult env P fuel → r1 = r2 := by
  intro env P fuel r1 r2 h1 h2
  rw [h1, h2]

/-- Closed instance of C9: two evaluations of the same concrete run
agree. -/
theorem c9_witness :
    obsResult envEmptyTempl patCallOne 30 = obsResult envEmptyTempl patCallOne 30 :=
  c9_deterministic_runs envEmptyTempl patCallOne 30 _ _ rfl rfl

/-- C10.  With an empty template list no sequence is ever valid — the
empty sequence included — so every scenario's validation records a
failure, a nonempty failure list forces `{passed: false}`, and
concretely a run with one scenario and no templates fails regardless of
the sequence the pattern produced. -/
theorem c10_empty_template_list_never_valid :
    (∀ sequence : List Entry, is_valid_sequence sequence [] = false)
    ∧ (∀ (env : Env) (scen : Nat) (v : Val) (s : MState), env.valid_sequences = [] →
        (runHandler env (.hValidate scen) v s).1.failures =
          s.failures ++ [failure_message ((scenarios env).getD scen [])
            (s.sequences.getD scen [])])
    ∧ (∀ (env : Env) (s : MState) (v : Val), s.failures ≠ [] →
        (runHandler env .hFinal v s).2 =
          .ok (.vRes false (some (String.intercalate "\n" s.failures))))
    ∧ obsResult envEmptyTempl patCallOne 30 =
        some (false, some "Pattern failed validation\n  Scenario: A -> ok\n  Sequence: A") := by
  refine ⟨fun sequence => rfl, ?_, ?_, by decide⟩
  · intro env scen v s h
    simp [runHandler, logEvent, h, is_valid_sequence]
  · intro env s v h
    have hpos : 0 < s.failures.length := List.length_pos.2 h
    simp [runHandler, hpos]

/-- Closed instance of C10: with no templates, validation of a
one-record sequence appends exactly the formatted failure entry, and the
empty sequence itself is invalid. -/
theorem c10_witness :
    is_valid_sequence [] [] = false
    ∧ (runHandler envEmptyTempl (.hValidate 0) .vUnit
        ⟨[], [], [[⟨"A", oOk⟩]], [], []⟩).1.failures =
      [] ++ [failure_message ((scenarios envEmptyTempl).getD 0 []) [⟨"A", oOk⟩]] :=
  ⟨c10_empty_template_list_never_valid.1 [],
   c10_empty_template_list_never_valid.2.1 envEmptyTempl 0 .vUnit
     ⟨[], [], [[⟨"A", oOk⟩]], [], []⟩ rfl⟩

/-- Closed instance of the amended C4: in the two-scenario run both
invocation events open the trace, before any settlement or
validation. -/
theorem c4_witness :
    ∃ t, (runTC envTwoFail patCallOne 30).1.events =
        [Event.evInvoke 0, Event.evInvoke 1] ++ t
      ∧ ∀ e ∈ t, e.isInvoke = false :=
  c4_amended_invocations_all_upfront envTwoFail patCallOne 30
